import Mathlib

/-!
Shallow embedding of the UE-DevUtilities observability core:
the memory usage tracker (`UMemoryUsageTracker`) and the gameplay event
logger (`UGameplayEventLogger`), together with proofs of the specified
properties.

Objects of the host object system are modelled by identifiers; a `World`
provides, for each identifier, its reflected field layout (the data the
`TFieldIterator` loop observes), its liveness (the combined
`TWeakObjectPtr` validity / `IsPendingKill` test), and its display name.
Field kinds mirror the `CastField` dispatch chain of the source.
-/

/-- Identity of a host object (a `UObject*`). `none` models a null pointer. -/
abbrev ObjId := Nat

/-- A reflected field as the `CastField` chain of the source distinguishes them:
a single object-reference field, an array whose inner property is an object
reference, an array of non-reference elements (element size and count), a
string field (externally reported allocated size), a name field, and any
other (POD) field carrying its declared element size. -/
inductive FieldVal : Type where
  | objRef : Option ObjId → FieldVal
  | arrOfRefs : List (Option ObjId) → FieldVal
  | arrPlain : Nat → Nat → FieldVal
  | strF : Nat → FieldVal
  | nameF : FieldVal
  | podF : Nat → FieldVal
deriving DecidableEq

/-- The host object system as seen by the tracker: a finite universe of
objects, each object's reflected field layout, its liveness, and its name. -/
structure World where
  objects : List ObjId
  layout : ObjId → List FieldVal
  live : ObjId → Bool
  name : ObjId → List Char

/-- The platform pointer size (`ArrayProp->Inner->ElementSize` for an array of
object references). -/
def ptrSize : Nat := 8

/-- The fixed per-object base overhead, `sizeof(*Object)` in the source. -/
def uobjectBaseSize : Nat := 64

/-- The non-null object references stored in one field, in field order, with
null entries dropped (the source skips null `RefObject`s). -/
def fieldRefs : FieldVal → List ObjId
  | .objRef (some r) => [r]
  | .objRef none => []
  | .arrOfRefs rs => rs.filterMap id
  | .arrPlain _ _ => []
  | .strF _ => []
  | .nameF => []
  | .podF _ => []

/-- All non-null object references reachable in one step from a field layout,
in the order the property iterator visits them. -/
def outRefs (fields : List FieldVal) : List ObjId :=
  (fields.map fieldRefs).flatten

/-- A world is well formed when every reference stored in a universe member
stays inside the universe (pointers always denote real objects). -/
def WFWorld (w : World) : Prop :=
  ∀ o ∈ w.objects, ∀ r ∈ outRefs (w.layout o), r ∈ w.objects

instance (w : World) : Decidable (WFWorld w) := by
  unfold WFWorld; infer_instance

/-! ## `UMemoryUsageTracker::CalculateMemoryUsage` -/

/-- Contribution of one reflected property to the size estimate, mirroring the
`CastField` if-else chain of the source: arrays are matched first (so an array
of references is sized as `Num * ElementSize`), then strings, names, single
object references, and finally the POD fallback adding `ElementSize`. -/
def propertyContribution : FieldVal → Nat
  | .arrOfRefs rs => rs.length * ptrSize
  | .arrPlain sz n => n * sz
  | .strF alloc => alloc
  | .nameF => 0
  | .objRef _ => 0
  | .podF sz => sz

/-- `UMemoryUsageTracker::CalculateMemoryUsage`: null yields 0, otherwise the
base object size plus the accumulated per-property contributions. -/
def calculateMemoryUsage (w : World) (o : Option ObjId) : Nat :=
  match o with
  | none => 0
  | some oid =>
      (w.layout oid).foldl (fun total f => total + propertyContribution f) uobjectBaseSize

/-- Per-field size as the specification sentence literally reads: any
object-reference field, whether a single reference or a sequence of
references, contributes zero. -/
def claimedFieldContribution : FieldVal → Nat
  | .strF alloc => alloc
  | .objRef _ => 0
  | .arrOfRefs _ => 0
  | .arrPlain sz n => n * sz
  | .nameF => 0
  | .podF sz => sz

/-- Per-field size as amended: a homogeneous sequence field contributes
`elementCount * elementSize` even when its elements are object references;
only a single object-reference field contributes zero; name fields are the
skipped (zero) kind. -/
def specFieldContribution : FieldVal → Nat
  | .strF alloc => alloc
  | .objRef _ => 0
  | .arrOfRefs rs => rs.length * ptrSize
  | .arrPlain sz n => n * sz
  | .nameF => 0
  | .podF sz => sz

/-! ## `UMemoryUsageTracker::CountReferencedObjects` -/

/-- The traversal engine of `CountReferencedObjects`.  `pending` is the list
of reference values still to be examined at the current recursion level (the
call sites guard each with a visited check), `visited` is the shared visited
set that the recursive callee extends before iterating its own fields, and
`fuel` decreases on every step so that the function is structurally
recursive (the C++ recursion needs no fuel because the finite object universe
bounds it; exhaustion yields `none`, and a sufficient fuel is proved to exist
for every well-formed world).  The returned count for an unvisited object is
1 (itself) plus the contributions of its references, exactly as in the
source. -/
def countGo (w : World) (fuel : Nat) (pending : List ObjId) (visited : List ObjId) :
    Option (Nat × List ObjId) :=
  match fuel with
  | 0 => none
  | f + 1 =>
    match pending with
    | [] => some (0, visited)
    | r :: rs =>
      if r ∈ visited then countGo w f rs visited
      else
        match countGo w f (outRefs (w.layout r)) (r :: visited) with
        | none => none
        | some (n, v1) =>
          match countGo w f rs v1 with
          | none => none
          | some (m, v2) => some (1 + n + m, v2)

/-- Fuel that provably suffices for a full traversal of a well-formed world:
two more than the total number of node visits and reference examinations the
walk can ever make. -/
def countFuel (w : World) : Nat :=
  2 + (w.objects.map (fun o => 1 + (outRefs (w.layout o)).length)).sum

/-- `UMemoryUsageTracker::CountReferencedObjects` invoked with a fresh visited
set, as the sampling pass does. -/
def countReferencedObjects (w : World) (root : ObjId) : Nat :=
  match countGo w (countFuel w) [root] [] with
  | some (n, _) => n
  | none => 0

/-- One-step reference relation of the world: `b` occurs among the non-null
references stored in `a`'s fields. -/
def RefEdge (w : World) (a b : ObjId) : Prop :=
  b ∈ outRefs (w.layout a)

/-- Reachability through reference-typed fields (reflexive-transitive). -/
def ReachableFrom (w : World) (a b : ObjId) : Prop :=
  Relation.ReflTransGen (RefEdge w) a b

/-- Replace every self-reference of `root` (a single reference or an array
element pointing back at `root`) by null, leaving everything else unchanged:
the "equivalent object without the cycle". -/
def clearSelfRef (root : ObjId) : FieldVal → FieldVal
  | .objRef (some r) => .objRef (if r = root then none else some r)
  | .objRef none => .objRef none
  | .arrOfRefs rs =>
      .arrOfRefs (rs.map fun e =>
        match e with
        | some x => if x = root then none else some x
        | none => none)
  | .arrPlain sz n => .arrPlain sz n
  | .strF a => .strF a
  | .nameF => .nameF
  | .podF sz => .podF sz

/-- The world in which `root`'s self-referential fields are nulled out. -/
def clearSelfRefs (w : World) (root : ObjId) : World :=
  { w with layout := fun o => if o = root then (w.layout o).map (clearSelfRef root) else w.layout o }

/-! ## Tracker state and operations -/

/-- `FMemoryUsageInfo`: one record of the cached snapshot. -/
structure FMemoryUsageInfo where
  objectName : List Char
  trackedObject : ObjId
  memoryBytes : Nat
  numReferencedObjects : Nat
deriving DecidableEq

/-- The record built for a live tracked object during a sampling pass. -/
def mkInfo (w : World) (oid : ObjId) : FMemoryUsageInfo :=
  { objectName := w.name oid
    trackedObject := oid
    memoryBytes := calculateMemoryUsage w (some oid)
    numReferencedObjects := countReferencedObjects w oid }

/-- Mutable state of `UMemoryUsageTracker`. -/
structure TrackerState where
  timeAccumulator : ℚ
  sampleInterval : ℚ
  trackedObjects : List ObjId
  cachedMemoryInfo : List FMemoryUsageInfo
deriving DecidableEq

/-- `TArray::RemoveAtSwap`: overwrite the element at `i` with the last element
and drop the last slot. -/
def removeAtSwap (t : List ObjId) (i : Nat) : List ObjId :=
  (t.set i (t.getLastD 0)).dropLast

/-- Resolving a weak handle (`TWeakObjectPtr::Get`): the referent when it is
still live, null otherwise. -/
def weakGet (w : World) (h : ObjId) : Option ObjId :=
  if w.live h then some h else none

/-- The body of the sampling pass: indices are walked from `i - 1` down to 0;
a live object is measured and appended to the cache, a dead handle is removed
with `RemoveAtSwap` (safe because the loop runs backward). -/
def samplePassLoop (w : World) :
    Nat → List ObjId → List FMemoryUsageInfo → List ObjId × List FMemoryUsageInfo
  | 0, t, cache => (t, cache)
  | i + 1, t, cache =>
    if h : i < t.length then
      let oid := t.get ⟨i, h⟩
      if w.live oid then samplePassLoop w i t (cache ++ [mkInfo w oid])
      else samplePassLoop w i (removeAtSwap t i) cache
    else samplePassLoop w i t cache

/-- One sampling pass of `TickComponent`: the cache is cleared and rebuilt
while dead handles are pruned from the tracked set. -/
def samplingPass (w : World) (t : List ObjId) : List ObjId × List FMemoryUsageInfo :=
  samplePassLoop w t.length t []

/-- `UMemoryUsageTracker::TickComponent`: early-out when the interval is not
positive or nothing is tracked; otherwise accumulate `DeltaTime` and, once the
accumulator reaches the interval, reset it and run one sampling pass. -/
def tickComponent (w : World) (dt : ℚ) (s : TrackerState) : TrackerState :=
  if s.sampleInterval ≤ 0 ∨ s.trackedObjects.length = 0 then s
  else
    let acc := s.timeAccumulator + dt
    if s.sampleInterval ≤ acc then
      { timeAccumulator := 0
        sampleInterval := s.sampleInterval
        trackedObjects := (samplingPass w s.trackedObjects).1
        cachedMemoryInfo := (samplingPass w s.trackedObjects).2 }
    else
      { s with timeAccumulator := acc }

/-- `UMemoryUsageTracker::RegisterObject` on the tracked list: null is a
warned no-op; otherwise the handles are scanned and the object is appended
only when no existing handle resolves to it. -/
def registerObject (w : World) (t : List ObjId) (o : Option ObjId) : List ObjId :=
  match o with
  | none => t
  | some oid =>
      if t.any (fun h => weakGet w h == some oid) then t
      else t ++ [oid]

/-- The backward scan of `UnregisterObject`: the first handle (from the end)
resolving to the object is removed with `RemoveAtSwap`; the scan then stops. -/
def unregisterLoop (w : World) (oid : ObjId) : Nat → List ObjId → List ObjId
  | 0, t => t
  | i + 1, t =>
    if h : i < t.length then
      if weakGet w (t.get ⟨i, h⟩) == some oid then removeAtSwap t i
      else unregisterLoop w oid i t
    else unregisterLoop w oid i t

/-- `UMemoryUsageTracker::UnregisterObject` on the tracked list. -/
def unregisterObject (w : World) (t : List ObjId) (o : Option ObjId) : List ObjId :=
  match o with
  | none => t
  | some oid => unregisterLoop w oid t.length t

/-- `RegisterObject` on the full component state (only the tracked list is
touched by the source). -/
def registerObjectS (w : World) (s : TrackerState) (o : Option ObjId) : TrackerState :=
  { s with trackedObjects := registerObject w s.trackedObjects o }

/-- `UnregisterObject` on the full component state. -/
def unregisterObjectS (w : World) (s : TrackerState) (o : Option ObjId) : TrackerState :=
  { s with trackedObjects := unregisterObject w s.trackedObjects o }

/-! ## `UGameplayEventLogger` -/

/-- `FGameplayEventEntry`. Wall-clock timestamps are opaque rendered text. -/
structure FGameplayEventEntry where
  eventName : List Char
  context : List Char
  gameTime : ℚ
  realTimestamp : List Char
deriving DecidableEq

/-- `UGameplayEventLogger::LogEvent`: an empty event name is a warned no-op;
otherwise the entry is appended (the simulated time and wall-clock instant are
captured from the environment and passed in here). -/
def logEvent (log : List FGameplayEventEntry) (name ctx : List Char) (time : ℚ)
    (utc : List Char) : List FGameplayEventEntry :=
  if name.isEmpty then log
  else log ++ [{ eventName := name, context := ctx, gameTime := time, realTimestamp := utc }]

/-- `UGameplayEventLogger::GetEventCount`. -/
def getEventCount (log : List FGameplayEventEntry) : Nat :=
  log.length

/-- `UGameplayEventLogger::ClearLog`. -/
def clearLog (_log : List FGameplayEventEntry) : List FGameplayEventEntry :=
  []

/-- `FString::ToLower` restricted to the character set the model carries. -/
def lowerStr (s : List Char) : List Char :=
  s.map Char.toLower

/-- `FString::Contains` as a substring test: the needle occurs (contiguously)
in the haystack; the empty needle matches everything. -/
def strContains (needle : List Char) : List Char → Bool
  | [] => needle.isEmpty
  | c :: t => needle.isPrefixOf (c :: t) || strContains needle t

/-- `UGameplayEventLogger::SearchEventsByName`: keep, in order, the entries
whose lowercased name contains the lowercased term. -/
def searchEventsByName (log : List FGameplayEventEntry) (term : List Char) :
    List FGameplayEventEntry :=
  log.filter fun e => strContains (lowerStr term) (lowerStr e.eventName)

/-- `UGameplayEventLogger::SearchEventsByContext`. -/
def searchEventsByContext (log : List FGameplayEventEntry) (term : List Char) :
    List FGameplayEventEntry :=
  log.filter fun e => strContains (lowerStr term) (lowerStr e.context)

/-- The double-quote character (kept symbolic to avoid escaping issues). -/
def dquoteChar : Char := Char.ofNat 34

/-- The newline character. -/
def newlineChar : Char := Char.ofNat 10

/-- `UGameplayEventLogger::SanitizeForCSV`: double internal quotes and wrap in
quotes when the text holds a quote or a comma. -/
def sanitizeForCSV (s : List Char) : List Char :=
  if s.contains dquoteChar || s.contains ',' then
    dquoteChar :: ((s.map fun c => if c = dquoteChar then [dquoteChar, dquoteChar] else [c]).flatten
      ++ [dquoteChar])
  else s

/-- Rendering of the game time for export.  The source prints a fixed
three-decimal float; the model renders the rational exactly, which is an
injective stand-in adequate for the exported-content claims. -/
def renderGameTime (q : ℚ) : List Char :=
  (toString q).data

/-- The CSV header line written by `ExportLogToCSV`. -/
def csvHeader : List Char :=
  "GameTime,EventName,Context,UTC_Timestamp".data ++ [newlineChar]

/-- One CSV row of `ExportLogToCSV`. -/
def csvLine (e : FGameplayEventEntry) : List Char :=
  renderGameTime e.gameTime ++ [','] ++ sanitizeForCSV e.eventName ++ [','] ++
    sanitizeForCSV e.context ++ [','] ++ e.realTimestamp ++ [newlineChar]

/-- `UGameplayEventLogger::ExportLogToCSV`.  `saveOk` models the outcome of
`FFileHelper::SaveStringToFile`; the second component is the content handed to
the file system (`none` when no write is attempted). -/
def exportLogToCSV (saveOk : Bool) (log : List FGameplayEventEntry) :
    Bool × Option (List Char) :=
  if log.length = 0 then (false, none)
  else (saveOk, some (csvHeader ++ (log.map csvLine).flatten))

/-! ## Derived predicates and concrete instances used by the verification -/

/-- `needle` occurs contiguously inside `hay`. -/
def IsSubstring (needle hay : List Char) : Prop :=
  ∃ pre post, hay = pre ++ needle ++ post

/-- The tracked set holds no two handles resolving to the same live referent:
since a handle resolves to its own identifier exactly when that object is
live, this says the live handles are pairwise distinct. -/
def NoDupLive (w : World) (t : List ObjId) : Prop :=
  (t.filter fun h => w.live h).Nodup

/-- Convenience builder for concrete worlds (names are irrelevant to every
claim, so they are left empty). -/
def mkWorld (objs : List ObjId) (lay : ObjId → List FieldVal) (lv : ObjId → Bool) : World :=
  { objects := objs, layout := lay, live := lv, name := fun _ => [] }

/-- World holding one object whose only field is an array of references with
a single (null) element. -/
def cexMemWorld : World :=
  mkWorld [0] (fun _ => [.arrOfRefs [none]]) (fun _ => true)

/-- World with no objects at all. -/
def trivialWorld : World :=
  mkWorld [] (fun _ => []) (fun _ => false)

/-- Tracker state with an empty tracked set. -/
def emptyTrackerState : TrackerState :=
  { timeAccumulator := 0, sampleInterval := 5, trackedObjects := [], cachedMemoryInfo := [] }

/-- World with one live, field-free object. -/
def singletonWorld : World :=
  mkWorld [0] (fun _ => []) (fun _ => true)

/-- Tracker state tracking object 0 with a partially filled accumulator. -/
def oneTrackedState : TrackerState :=
  { timeAccumulator := 1, sampleInterval := 5, trackedObjects := [0], cachedMemoryInfo := [] }

/-- The diamond of the specification: root 0 references 1 and 2, and 1 also
references 2. -/
def diamondWorld : World :=
  mkWorld [0, 1, 2]
    (fun o =>
      if o = 0 then [.objRef (some 1), .objRef (some 2)]
      else if o = 1 then [.objRef (some 2)]
      else [])
    (fun _ => true)

/-- World whose single object holds a reference back to itself. -/
def selfLoopWorld : World :=
  mkWorld [0] (fun _ => [.objRef (some 0)]) (fun _ => true)

/-- Two field-free tracked objects of which only object 0 is still live. -/
def pruneWorld : World :=
  mkWorld [0, 1] (fun _ => []) (fun o => o == 0)

/-- A world of live, field-free objects. -/
def liveWorld : World :=
  mkWorld [0, 1, 2, 3, 4, 5, 6, 7] (fun _ => []) (fun _ => true)

/-- Tracker state holding three live tracked handles. -/
def threeTrackedState : TrackerState :=
  { timeAccumulator := 0, sampleInterval := 5, trackedObjects := [5, 7, 6], cachedMemoryInfo := [] }

/-- First "Spawn" entry of the worked example. -/
def spawnEntryA : FGameplayEventEntry :=
  { eventName := "Spawn".data, context := "A".data, gameTime := 1, realTimestamp := [] }

/-- Second "Spawn" entry of the worked example. -/
def spawnEntryB : FGameplayEventEntry :=
  { eventName := "Spawn".data, context := "B".data, gameTime := 2, realTimestamp := [] }

/-- The "Death" entry of the worked example. -/
def deathEntry : FGameplayEventEntry :=
  { eventName := "Death".data, context := "C".data, gameTime := 3, realTimestamp := [] }

/-- The log of the worked example: Spawn, Spawn, Death. -/
def exampleEventLog : List FGameplayEventEntry :=
  [spawnEntryA, spawnEntryB, deathEntry]

/-! ## Size estimator: claims C2 -/

lemma foldl_add_map (g : FieldVal → Nat) (l : List FieldVal) (a : Nat) :
    l.foldl (fun t f => t + g f) a = a + (l.map g).sum := by
  induction l generalizing a with
  | nil => simp
  | cons x xs ih => simp [ih, Nat.add_assoc]

lemma propertyContribution_eq_spec (f : FieldVal) :
    propertyContribution f = specFieldContribution f := by
  cases f <;> rfl

/-- Claim C2, counterexample: on an object whose only reflected field is a
one-element array of object references, the source sizes the field as
`Num * ElementSize` (the array branch runs first), so the result differs from
the claimed formula in which any sequence-of-references field contributes
zero. -/
theorem calculateMemoryUsage_refArray_cex :
    calculateMemoryUsage cexMemWorld (some 0)
      ≠ uobjectBaseSize + ((cexMemWorld.layout 0).map claimedFieldContribution).sum := by
  decide

/-- Claim C2 (amended): a null object yields 0, and for every non-null object
the result is the fixed base overhead plus, per reflected field: allocated
byte size for a string field, zero for a single object-reference field,
`elementCount * elementSize` for every homogeneous sequence field (including
sequences of references), zero for a name field, and the declared byte width
for every other field kind. -/
theorem calculateMemoryUsage_formula (w : World) :
    calculateMemoryUsage w none = 0
    ∧ ∀ oid, calculateMemoryUsage w (some oid)
        = uobjectBaseSize + ((w.layout oid).map specFieldContribution).sum := by
  refine ⟨rfl, fun oid => ?_⟩
  show (w.layout oid).foldl (fun total f => total + propertyContribution f) uobjectBaseSize
      = uobjectBaseSize + ((w.layout oid).map specFieldContribution).sum
  rw [foldl_add_map, funext propertyContribution_eq_spec]

/-! ## Ticking: claim C5 -/

/-- Claim C5, counterexample: with an empty tracked set the per-tick advance
is a complete no-op, so the accumulator does not gain `deltaTime`. -/
theorem tick_untracked_skips_accumulation :
    (tickComponent trivialWorld 1 emptyTrackerState).timeAccumulator
      ≠ emptyTrackerState.timeAccumulator + 1 := by
  have h : tickComponent trivialWorld 1 emptyTrackerState = emptyTrackerState := by
    unfold tickComponent
    rw [if_pos]
    exact Or.inr rfl
  rw [h]
  norm_num [emptyTrackerState]

/-- Claim C5 (amended): while the interval is positive and at least one object
is tracked, each advance adds `deltaTime` to the accumulator, resetting it and
running exactly one sampling pass when it reaches the interval; with an empty
tracked set (or a non-positive interval) the advance is a complete no-op. -/
theorem tickComponent_behaviour (w : World) (dt : ℚ) (s : TrackerState) :
    ((s.trackedObjects = [] ∨ s.sampleInterval ≤ 0) → tickComponent w dt s = s)
    ∧ (0 < s.sampleInterval → s.trackedObjects ≠ [] →
        ((s.sampleInterval ≤ s.timeAccumulator + dt →
            tickComponent w dt s =
              { timeAccumulator := 0
                sampleInterval := s.sampleInterval
                trackedObjects := (samplingPass w s.trackedObjects).1
                cachedMemoryInfo := (samplingPass w s.trackedObjects).2 })
          ∧ (s.timeAccumulator + dt < s.sampleInterval →
              tickComponent w dt s = { s with timeAccumulator := s.timeAccumulator + dt }))) := by
  constructor
  · intro h
    unfold tickComponent
    rw [if_pos]
    rcases h with h | h
    · exact Or.inr (by simp [h])
    · exact Or.inl h
  · intro hpos hne
    have hcond : ¬(s.sampleInterval ≤ 0 ∨ s.trackedObjects.length = 0) := by
      push_neg
      exact ⟨hpos, by simpa [List.length_eq_zero] using hne⟩
    constructor
    · intro hreach
      unfold tickComponent
      rw [if_neg hcond, if_pos hreach]
    · intro hless
      unfold tickComponent
      rw [if_neg hcond, if_neg (not_le.2 hless)]

/-- Witness for the amended claim C5 at a concrete state: a 2-unit tick on an
accumulator at 1 with interval 5 only advances the accumulator. -/
theorem tickComponent_behaviour_witness :
    tickComponent singletonWorld 2 oneTrackedState
      = { oneTrackedState with timeAccumulator := 1 + 2 } :=
  ((tickComponent_behaviour singletonWorld 2 oneTrackedState).2
    (by norm_num [oneTrackedState]) (by simp [oneTrackedState])).2
    (by norm_num [oneTrackedState])

/-! ## Export: claim C8 -/

/-- Claim C8: exporting an empty log returns false and attempts no write;
otherwise the result is exactly the outcome of the underlying file write, so
true is returned precisely when the write succeeds. -/
theorem exportLogToCSV_result (saveOk : Bool) (log : List FGameplayEventEntry) :
    (log = [] → exportLogToCSV saveOk log = (false, none))
    ∧ ((exportLogToCSV saveOk log).1 = true ↔ log ≠ [] ∧ saveOk = true)
    ∧ (saveOk = false → (exportLogToCSV saveOk log).1 = false) := by
  unfold exportLogToCSV
  refine ⟨?_, ?_, ?_⟩ <;> cases log <;> cases saveOk <;> simp

/-- Witness for claim C8: the empty log exports to a false result with no
attempted write, even when the file system would accept the write. -/
theorem exportLogToCSV_result_witness :
    exportLogToCSV true ([] : List FGameplayEventEntry) = (false, none) :=
  (exportLogToCSV_result true []).1 rfl

/-! ## Invalid inputs: claim C9 -/

/-- Claim C9: registering or unregistering a null object and logging an event
with an empty name are no-ops on the component state; in particular an empty
event name leaves the event count unchanged. -/
theorem invalidInput_noop (w : World) (s : TrackerState) (log : List FGameplayEventEntry)
    (ctx utc : List Char) (t : ℚ) :
    registerObjectS w s none = s
    ∧ unregisterObjectS w s none = s
    ∧ logEvent log [] ctx t utc = log
    ∧ getEventCount (logEvent log [] ctx t utc) = getEventCount log :=
  ⟨rfl, rfl, rfl, rfl⟩

/-! ## Event search: claim C3 -/

lemma strContains_nil_needle (hay : List Char) : strContains [] hay = true := by
  cases hay <;> simp [strContains, List.isPrefixOf]

lemma strContains_iff (needle hay : List Char) :
    strContains needle hay = true ↔ IsSubstring needle hay := by
  induction hay with
  | nil =>
    simp only [strContains, List.isEmpty_iff, IsSubstring]
    constructor
    · rintro rfl
      exact ⟨[], [], rfl⟩
    · rintro ⟨pre, post, h⟩
      rcases List.append_eq_nil.1 h.symm with ⟨h1, -⟩
      exact (List.append_eq_nil.1 h1).2
  | cons c t ih =>
    simp only [strContains, Bool.or_eq_true, List.isPrefixOf_iff_prefix, ih]
    constructor
    · rintro (⟨post, hp⟩ | ⟨pre, post, h⟩)
      · exact ⟨[], post, by simp [hp.symm]⟩
      · exact ⟨c :: pre, post, by simp [h]⟩
    · rintro ⟨pre, post, h⟩
      match pre, h with
      | [], h => exact Or.inl ⟨post, by simpa using h.symm⟩
      | p :: ps, h =>
        rcases List.cons_eq_cons.1 h with ⟨-, h2⟩
        exact Or.inr ⟨ps, post, h2⟩

/-- Claim C3: both search operations are the order-preserving filter of the
log by the case-insensitive substring test on the respective field, the
substring test means exactly the existence of a contiguous occurrence inside
the lowercased text, an empty term matches every entry, and the worked
example (log Spawn, Spawn, Death; search "SPa") returns exactly the two Spawn
entries in original order. -/
theorem searchEvents_ci_filter (log : List FGameplayEventEntry) (term : List Char) :
    searchEventsByName log term
        = log.filter (fun e => strContains (lowerStr term) (lowerStr e.eventName))
    ∧ searchEventsByContext log term
        = log.filter (fun e => strContains (lowerStr term) (lowerStr e.context))
    ∧ (∀ needle hay : List Char, strContains needle hay = true ↔ IsSubstring needle hay)
    ∧ (searchEventsByName log term).Sublist log
    ∧ (searchEventsByContext log term).Sublist log
    ∧ searchEventsByName log [] = log
    ∧ searchEventsByContext log [] = log
    ∧ searchEventsByName exampleEventLog ("SPa".data) = [spawnEntryA, spawnEntryB] := by
  refine ⟨rfl, rfl, strContains_iff, List.filter_sublist _, List.filter_sublist _, ?_, ?_, ?_⟩
  · exact List.filter_eq_self.2 fun e _ => strContains_nil_needle _
  · exact List.filter_eq_self.2 fun e _ => strContains_nil_needle _
  · decide

/-! ## Reference walker: claims C1 and C4 -/

lemma countGo_zero (w : World) (p v : List ObjId) : countGo w 0 p v = none := rfl

lemma countGo_nil (w : World) (f : Nat) (v : List ObjId) :
    countGo w (f + 1) [] v = some (0, v) := rfl

lemma countGo_cons_mem (w : World) (f : Nat) {r : ObjId} (rs v : List ObjId)
    (h : r ∈ v) : countGo w (f + 1) (r :: rs) v = countGo w f rs v := by
  conv_lhs => unfold countGo
  simp [h]

lemma countGo_cons_none1 (w : World) (f : Nat) {r : ObjId} (rs v : List ObjId)
    (h : r ∉ v) (hc : countGo w f (outRefs (w.layout r)) (r :: v) = none) :
    countGo w (f + 1) (r :: rs) v = none := by
  conv_lhs => unfold countGo
  simp [h, hc]

lemma countGo_cons_none2 (w : World) (f : Nat) {r : ObjId} (rs v : List ObjId)
    {nc : Nat} {v1 : List ObjId} (h : r ∉ v)
    (hc : countGo w f (outRefs (w.layout r)) (r :: v) = some (nc, v1))
    (hs : countGo w f rs v1 = none) :
    countGo w (f + 1) (r :: rs) v = none := by
  conv_lhs => unfold countGo
  simp [h, hc, hs]

lemma countGo_cons_some (w : World) (f : Nat) {r : ObjId} (rs v : List ObjId)
    {nc ms : Nat} {v1 v2 : List ObjId} (h : r ∉ v)
    (hc : countGo w f (outRefs (w.layout r)) (r :: v) = some (nc, v1))
    (hs : countGo w f rs v1 = some (ms, v2)) :
    countGo w (f + 1) (r :: rs) v = some (1 + nc + ms, v2) := by
  conv_lhs => unfold countGo
  simp [h, hc, hs]

lemma countGo_sub (w : World) (fuel : Nat) (p v : List ObjId) :
    ∀ n v', countGo w fuel p v = some (n, v') → ∀ x ∈ v, x ∈ v' := by
  induction fuel, p, v using countGo.induct w with
  | case1 p v =>
    intro n v' h
    rw [countGo_zero] at h
    cases h
  | case2 v f =>
    intro n v' h x hx
    rw [countGo_nil] at h
    cases h
    exact hx
  | case3 v f r rs hr ih =>
    intro n v' h
    rw [countGo_cons_mem _ _ _ _ hr] at h
    exact ih n v' h
  | case4 v f r rs hr hc ih =>
    intro n v' h
    rw [countGo_cons_none1 _ _ _ _ hr hc] at h
    cases h
  | case5 v f r rs hr nc v1 hc hs ih1 ih2 =>
    intro n v' h
    rw [countGo_cons_none2 _ _ _ _ hr hc hs] at h
    cases h
  | case6 v f r rs hr nc v1 hc ms v2 hs ih1 ih2 =>
    intro n v' h x hx
    rw [countGo_cons_some _ _ _ _ hr hc hs] at h
    cases h
    exact ih2 _ _ hs x (ih1 _ _ hc x (List.mem_cons_of_mem _ hx))

lemma countGo_pending_mem (w : World) (fuel : Nat) (p v : List ObjId) :
    ∀ n v', countGo w fuel p v = some (n, v') → ∀ x ∈ p, x ∈ v' := by
  induction fuel, p, v using countGo.induct w with
  | case1 p v =>
    intro n v' h
    rw [countGo_zero] at h
    cases h
  | case2 v f =>
    intro n v' h x hx
    cases hx
  | case3 v f r rs hr ih =>
    intro n v' h x hx
    rw [countGo_cons_mem _ _ _ _ hr] at h
    rcases List.mem_cons.1 hx with rfl | hx'
    · exact countGo_sub _ _ _ _ _ _ h x hr
    · exact ih n v' h x hx'
  | case4 v f r rs hr hc ih =>
    intro n v' h
    rw [countGo_cons_none1 _ _ _ _ hr hc] at h
    cases h
  | case5 v f r rs hr nc v1 hc hs ih1 ih2 =>
    intro n v' h
    rw [countGo_cons_none2 _ _ _ _ hr hc hs] at h
    cases h
  | case6 v f r rs hr nc v1 hc ms v2 hs ih1 ih2 =>
    intro n v' h x hx
    rw [countGo_cons_some _ _ _ _ hr hc hs] at h
    cases h
    rcases List.mem_cons.1 hx with rfl | hx'
    · exact countGo_sub _ _ _ _ _ _ hs x
        (countGo_sub _ _ _ _ _ _ hc x (List.mem_cons_self _ _))
    · exact ih2 _ _ hs x hx'

lemma countGo_length (w : World) (fuel : Nat) (p v : List ObjId) :
    ∀ n v', countGo w fuel p v = some (n, v') → v'.length = n + v.length := by
  induction fuel, p, v using countGo.induct w with
  | case1 p v =>
    intro n v' h
    rw [countGo_zero] at h
    cases h
  | case2 v f =>
    intro n v' h
    rw [countGo_nil] at h
    cases h
    simp
  | case3 v f r rs hr ih =>
    intro n v' h
    rw [countGo_cons_mem _ _ _ _ hr] at h
    exact ih n v' h
  | case4 v f r rs hr hc ih =>
    intro n v' h
    rw [countGo_cons_none1 _ _ _ _ hr hc] at h
    cases h
  | case5 v f r rs hr nc v1 hc hs ih1 ih2 =>
    intro n v' h
    rw [countGo_cons_none2 _ _ _ _ hr hc hs] at h
    cases h
  | case6 v f r rs hr nc v1 hc ms v2 hs ih1 ih2 =>
    intro n v' h
    rw [countGo_cons_some _ _ _ _ hr hc hs] at h
    cases h
    have h1 := ih1 _ _ hc
    have h2 := ih2 _ _ hs
    simp only [List.length_cons] at h1
    omega

lemma countGo_nodup (w : World) (fuel : Nat) (p v : List ObjId) :
    ∀ n v', countGo w fuel p v = some (n, v') → v.Nodup → v'.Nodup := by
  induction fuel, p, v using countGo.induct w with
  | case1 p v =>
    intro n v' h
    rw [countGo_zero] at h
    cases h
  | case2 v f =>
    intro n v' h hnd
    rw [countGo_nil] at h
    cases h
    exact hnd
  | case3 v f r rs hr ih =>
    intro n v' h
    rw [countGo_cons_mem _ _ _ _ hr] at h
    exact ih n v' h
  | case4 v f r rs hr hc ih =>
    intro n v' h
    rw [countGo_cons_none1 _ _ _ _ hr hc] at h
    cases h
  | case5 v f r rs hr nc v1 hc hs ih1 ih2 =>
    intro n v' h
    rw [countGo_cons_none2 _ _ _ _ hr hc hs] at h
    cases h
  | case6 v f r rs hr nc v1 hc ms v2 hs ih1 ih2 =>
    intro n v' h hnd
    rw [countGo_cons_some _ _ _ _ hr hc hs] at h
    cases h
    exact ih2 _ _ hs (ih1 _ _ hc (List.nodup_cons.2 ⟨hr, hnd⟩))

lemma countGo_closed (w : World) (fuel : Nat) (p v : List ObjId) :
    ∀ n v', countGo w fuel p v = some (n, v') →
      ∀ a ∈ v', a ∉ v → ∀ b, RefEdge w a b → b ∈ v' := by
  induction fuel, p, v using countGo.induct w with
  | case1 p v =>
    intro n v' h
    rw [countGo_zero] at h
    cases h
  | case2 v f =>
    intro n v' h a ha hav
    rw [countGo_nil] at h
    cases h
    exact absurd ha hav
  | case3 v f r rs hr ih =>
    intro n v' h
    rw [countGo_cons_mem _ _ _ _ hr] at h
    exact ih n v' h
  | case4 v f r rs hr hc ih =>
    intro n v' h
    rw [countGo_cons_none1 _ _ _ _ hr hc] at h
    cases h
  | case5 v f r rs hr nc v1 hc hs ih1 ih2 =>
    intro n v' h
    rw [countGo_cons_none2 _ _ _ _ hr hc hs] at h
    cases h
  | case6 v f r rs hr nc v1 hc ms v2 hs ih1 ih2 =>
    intro n v' h a ha hav b hedge
    rw [countGo_cons_some _ _ _ _ hr hc hs] at h
    cases h
    have hv1sub : ∀ x ∈ v1, x ∈ v2 := countGo_sub _ _ _ _ _ _ hs
    by_cases hav1 : a ∈ v1
    · by_cases har : a = r
      · subst har
        exact hv1sub b (countGo_pending_mem _ _ _ _ _ _ hc b hedge)
      · have hnotin : a ∉ r :: v := by
          simp [List.mem_cons, har, hav]
        exact hv1sub b (ih1 _ _ hc a hav1 hnotin b hedge)
    · exact ih2 _ _ hs a ha hav1 b hedge

lemma countGo_sound (w : World) (fuel : Nat) (p v : List ObjId) :
    ∀ n v', countGo w fuel p v = some (n, v') →
      ∀ a ∈ v', a ∈ v ∨ ∃ p0 ∈ p, ReachableFrom w p0 a := by
  induction fuel, p, v using countGo.induct w with
  | case1 p v =>
    intro n v' h
    rw [countGo_zero] at h
    cases h
  | case2 v f =>
    intro n v' h a ha
    rw [countGo_nil] at h
    cases h
    exact Or.inl ha
  | case3 v f r rs hr ih =>
    intro n v' h a ha
    rw [countGo_cons_mem _ _ _ _ hr] at h
    rcases ih n v' h a ha with hv | ⟨p0, hp0, hre⟩
    · exact Or.inl hv
    · exact Or.inr ⟨p0, List.mem_cons_of_mem _ hp0, hre⟩
  | case4 v f r rs hr hc ih =>
    intro n v' h
    rw [countGo_cons_none1 _ _ _ _ hr hc] at h
    cases h
  | case5 v f r rs hr nc v1 hc hs ih1 ih2 =>
    intro n v' h
    rw [countGo_cons_none2 _ _ _ _ hr hc hs] at h
    cases h
  | case6 v f r rs hr nc v1 hc ms v2 hs ih1 ih2 =>
    intro n v' h a ha
    rw [countGo_cons_some _ _ _ _ hr hc hs] at h
    cases h
    rcases ih2 _ _ hs a ha with hv1 | ⟨p0, hp0, hre⟩
    · rcases ih1 _ _ hc a hv1 with hrv | ⟨c, hc', hre⟩
      · rcases List.mem_cons.1 hrv with rfl | hv
        · exact Or.inr ⟨a, List.mem_cons_self _ _, Relation.ReflTransGen.refl⟩
        · exact Or.inl hv
      · exact Or.inr ⟨r, List.mem_cons_self _ _, Relation.ReflTransGen.head hc' hre⟩
    · exact Or.inr ⟨p0, List.mem_cons_of_mem _ hp0, hre⟩

lemma sdiff_toFinset_cons (O : Finset ObjId) (r : ObjId) (v : List ObjId) :
    O \ (r :: v).toFinset = (O \ v.toFinset).erase r := by
  ext x
  simp only [Finset.mem_sdiff, List.toFinset_cons, Finset.mem_insert, Finset.mem_erase,
    List.mem_toFinset]
  tauto

lemma toFinset_sum_le (l : List ObjId) (g : ObjId → Nat) :
    l.toFinset.sum g ≤ (l.map g).sum := by
  induction l with
  | nil => simp
  | cons a t ih =>
    simp only [List.toFinset_cons, List.map_cons, List.sum_cons]
    by_cases ha : a ∈ t.toFinset
    · rw [Finset.insert_eq_self.2 ha]
      exact le_trans ih (Nat.le_add_left _ _)
    · rw [Finset.sum_insert ha]
      exact Nat.add_le_add_left ih _

lemma countGo_isSome (w : World) (hwf : WFWorld w) :
    ∀ (fuel : Nat) (p v : List ObjId), (∀ x ∈ p, x ∈ w.objects) →
      p.length + ((w.objects.toFinset \ v.toFinset).sum
          fun x => 1 + (outRefs (w.layout x)).length) < fuel →
      (countGo w fuel p v).isSome := by
  intro fuel
  induction fuel with
  | zero =>
    intro p v _ h
    exact absurd h (Nat.not_lt_zero _)
  | succ f ih =>
    intro p v hp hbound
    match p with
    | [] =>
      rw [countGo_nil]
      rfl
    | r :: rs =>
      simp only [List.length_cons] at hbound
      by_cases hr : r ∈ v
      · rw [countGo_cons_mem _ _ _ _ hr]
        apply ih rs v (fun x hx => hp x (List.mem_cons_of_mem _ hx))
        omega
      · have hrO : r ∈ w.objects := hp r (List.mem_cons_self _ _)
        have hmem : r ∈ w.objects.toFinset \ v.toFinset := by
          simp [List.mem_toFinset, hrO, hr]
        have hsum : ((w.objects.toFinset \ v.toFinset).erase r).sum
              (fun x => 1 + (outRefs (w.layout x)).length)
              + (1 + (outRefs (w.layout r)).length)
            = (w.objects.toFinset \ v.toFinset).sum
              (fun x => 1 + (outRefs (w.layout x)).length) :=
          Finset.sum_erase_add _ _ hmem
        have hchild := ih (outRefs (w.layout r)) (r :: v)
          (fun x hx => hwf r hrO x hx)
          (by rw [sdiff_toFinset_cons]; omega)
        obtain ⟨⟨nc, v1⟩, hc⟩ := Option.isSome_iff_exists.1 hchild
        have hv1 : ∀ x ∈ r :: v, x ∈ v1 := countGo_sub _ _ _ _ _ _ hc
        have hsiblesum : (w.objects.toFinset \ v1.toFinset).sum
              (fun x => 1 + (outRefs (w.layout x)).length)
            ≤ ((w.objects.toFinset \ v.toFinset).erase r).sum
              (fun x => 1 + (outRefs (w.layout x)).length) := by
          rw [← sdiff_toFinset_cons]
          refine Finset.sum_le_sum_of_subset ?_
          refine Finset.sdiff_subset_sdiff (le_refl _) ?_
          intro x hx
          exact List.mem_toFinset.2 (hv1 x (List.mem_toFinset.1 hx))
        have hsib := ih rs v1 (fun x hx => hp x (List.mem_cons_of_mem _ hx)) (by omega)
        obtain ⟨⟨ms, v2⟩, hs⟩ := Option.isSome_iff_exists.1 hsib
        rw [countGo_cons_some _ _ _ _ hr hc hs]
        rfl

lemma countReferencedObjects_run (w : World) (root : ObjId) (hwf : WFWorld w)
    (hroot : root ∈ w.objects) :
    ∃ vis : List ObjId,
      countGo w (countFuel w) [root] [] = some (vis.length, vis)
      ∧ countReferencedObjects w root = vis.length
      ∧ vis.Nodup ∧ root ∈ vis
      ∧ (∀ x, x ∈ vis ↔ ReachableFrom w root x) := by
  have hbound : ([root] : List ObjId).length
      + ((w.objects.toFinset \ ([] : List ObjId).toFinset).sum
          fun x => 1 + (outRefs (w.layout x)).length) < countFuel w := by
    have hle := toFinset_sum_le w.objects fun x => 1 + (outRefs (w.layout x)).length
    simp only [List.toFinset_nil, Finset.sdiff_empty, List.length_singleton, countFuel]
    omega
  have hs := countGo_isSome w hwf (countFuel w) [root] [] (by simpa using hroot) hbound
  obtain ⟨⟨n, vis⟩, h⟩ := Option.isSome_iff_exists.1 hs
  have hlen : vis.length = n + ([] : List ObjId).length := countGo_length _ _ _ _ _ _ h
  simp only [List.length_nil, Nat.add_zero] at hlen
  subst hlen
  have hnd : vis.Nodup := countGo_nodup _ _ _ _ _ _ h List.nodup_nil
  have hrv : root ∈ vis := countGo_pending_mem _ _ _ _ _ _ h root (List.mem_cons_self _ _)
  refine ⟨vis, h, by unfold countReferencedObjects; rw [h], hnd, hrv, fun x => ⟨?_, ?_⟩⟩
  · intro hx
    rcases countGo_sound _ _ _ _ _ _ h x hx with hv | ⟨p0, hp0, hre⟩
    · cases hv
    · rcases List.mem_cons.1 hp0 with rfl | hfalse
      · exact hre
      · cases hfalse
  · intro hreach
    induction hreach with
    | refl => exact hrv
    | tail _ hstep ih =>
      exact countGo_closed _ _ _ _ _ _ h _ ih (List.not_mem_nil _) _ hstep

/-- Claim C1: with a fresh visited set, `CountReferencedObjects` returns the
cardinality of the set of objects reachable from the root through
reference-typed fields (single references and elements of reference arrays);
the root itself belongs to that set, so each reachable object — however many
paths lead to it — is counted exactly once per call. -/
theorem countReferencedObjects_counts_reachable (w : World) (root : ObjId)
    (hwf : WFWorld w) (hroot : root ∈ w.objects) :
    ∃ S : Finset ObjId, (∀ x, x ∈ S ↔ ReachableFrom w root x)
      ∧ root ∈ S
      ∧ countReferencedObjects w root = S.card := by
  obtain ⟨vis, _, hcount, hnd, hrv, hiff⟩ := countReferencedObjects_run w root hwf hroot
  refine ⟨vis.toFinset, ?_, List.mem_toFinset.2 hrv, ?_⟩
  · intro x
    rw [List.mem_toFinset]
    exact hiff x
  · rw [hcount, List.card_toFinset, hnd.dedup]

/-- Witness for claim C1 on the diamond of the specification: root 0
references 1 and 2, object 1 also references 2, and the call from 0 returns
3 — the shared referent is counted once. -/
theorem countReferencedObjects_counts_reachable_witness :
    countReferencedObjects diamondWorld 0 = 3
    ∧ ∃ S : Finset ObjId, (∀ x, x ∈ S ↔ ReachableFrom diamondWorld 0 x)
        ∧ 0 ∈ S
        ∧ countReferencedObjects diamondWorld 0 = S.card :=
  ⟨by decide, countReferencedObjects_counts_reachable diamondWorld 0 (by decide) (by decide)⟩

lemma outRefs_cons (f : FieldVal) (fs : List FieldVal) :
    outRefs (f :: fs) = fieldRefs f ++ outRefs fs := rfl

lemma filterMap_clear (root : ObjId) (rs : List (Option ObjId)) :
    (rs.map (fun e =>
        match e with
        | some x => if x = root then none else some x
        | none => none)).filterMap id
      = (rs.filterMap id).filter (fun x => x != root) := by
  induction rs with
  | nil => rfl
  | cons e es ih =>
    cases e with
    | none => simpa using ih
    | some x =>
      by_cases hx : x = root
      · subst hx
        simpa using ih
      · simp [hx, ih]

lemma fieldRefs_clearSelfRef (root : ObjId) (f : FieldVal) :
    fieldRefs (clearSelfRef root f) = (fieldRefs f).filter (fun x => x != root) := by
  cases f with
  | objRef o =>
    cases o with
    | none => rfl
    | some r =>
      by_cases hr : r = root
      · subst hr
        simp [clearSelfRef, fieldRefs]
      · simp [clearSelfRef, fieldRefs, hr]
  | arrOfRefs rs => simpa [clearSelfRef, fieldRefs] using filterMap_clear root rs
  | arrPlain sz n => rfl
  | strF a => rfl
  | nameF => rfl
  | podF sz => rfl

lemma outRefs_clearSelfRef (root : ObjId) (fs : List FieldVal) :
    outRefs (fs.map (clearSelfRef root)) = (outRefs fs).filter (fun x => x != root) := by
  induction fs with
  | nil => rfl
  | cons f fs ih =>
    simp only [List.map_cons, outRefs_cons, List.filter_append, fieldRefs_clearSelfRef, ih]

lemma RefEdge_clear_iff (w : World) (root a b : ObjId) :
    RefEdge (clearSelfRefs w root) a b ↔ RefEdge w a b ∧ ¬(a = root ∧ b = root) := by
  unfold RefEdge clearSelfRefs
  by_cases ha : a = root
  · subst ha
    simp [outRefs_clearSelfRef, List.mem_filter]
  · simp [ha]

lemma reachable_clear_iff (w : World) (root x : ObjId) :
    ReachableFrom (clearSelfRefs w root) root x ↔ ReachableFrom w root x := by
  constructor
  · intro h
    exact Relation.ReflTransGen.mono
      (fun a b hab => ((RefEdge_clear_iff w root a b).1 hab).1) h
  · intro h
    induction h with
    | refl => exact Relation.ReflTransGen.refl
    | @tail b c hab hbc ih =>
      by_cases hb : b = root ∧ c = root
      · rcases hb with ⟨-, rfl⟩
        exact Relation.ReflTransGen.refl
      · exact ih.tail ((RefEdge_clear_iff w root _ _).2 ⟨hbc, hb⟩)

lemma WFWorld_clear (w : World) (root : ObjId) (hwf : WFWorld w) :
    WFWorld (clearSelfRefs w root) := by
  intro o ho r hr
  by_cases horoot : o = root
  · subst horoot
    have hlay : (clearSelfRefs w o).layout o = (w.layout o).map (clearSelfRef o) := by
      simp [clearSelfRefs]
    rw [hlay, outRefs_clearSelfRef] at hr
    exact hwf o ho r (List.mem_filter.1 hr).1
  · have hlay : (clearSelfRefs w root).layout o = w.layout o := by
      simp [clearSelfRefs, horoot]
    rw [hlay] at hr
    exact hwf o ho r hr

/-- Claim C4: on every finite well-formed reference graph — cycles and
self-references included — the traversal completes (the explicit fuel, which
mirrors the strict growth of the visited set, is never exhausted), and nulling
out an object's self-referential fields leaves its count unchanged: the cycle
adds nothing. -/
theorem countReferencedObjects_terminates_cycle_safe (w : World) (root : ObjId)
    (hwf : WFWorld w) (hroot : root ∈ w.objects) :
    (countGo w (countFuel w) [root] []).isSome = true
    ∧ countReferencedObjects (clearSelfRefs w root) root = countReferencedObjects w root := by
  constructor
  · obtain ⟨vis, h, -⟩ := countReferencedObjects_run w root hwf hroot
    rw [h]
    rfl
  · have hwf' := WFWorld_clear w root hwf
    have hroot' : root ∈ (clearSelfRefs w root).objects := hroot
    obtain ⟨vis, -, hcount, hnd, -, hiff⟩ := countReferencedObjects_run w root hwf hroot
    obtain ⟨vis', -, hcount', hnd', -, hiff'⟩ :=
      countReferencedObjects_run (clearSelfRefs w root) root hwf' hroot'
    rw [hcount, hcount']
    have hmem : ∀ x, x ∈ vis' ↔ x ∈ vis := by
      intro x
      rw [hiff x, hiff' x, reachable_clear_iff]
    exact List.Perm.length_eq ((List.perm_ext_iff_of_nodup hnd' hnd).2 hmem)

/-- Witness for claim C4 on a single self-referential object: the traversal
completes, the count is 1, and removing the self-loop leaves it at 1. -/
theorem countReferencedObjects_terminates_cycle_safe_witness :
    countReferencedObjects selfLoopWorld 0 = 1
    ∧ ((countGo selfLoopWorld (countFuel selfLoopWorld) [0] []).isSome = true
        ∧ countReferencedObjects (clearSelfRefs selfLoopWorld 0) 0
            = countReferencedObjects selfLoopWorld 0) :=
  ⟨by decide,
    countReferencedObjects_terminates_cycle_safe selfLoopWorld 0 (by decide) (by decide)⟩

/-! ## `RemoveAtSwap` and the sampling pass: claims C6, C7, C10 -/

lemma removeAtSwap_eq (t : List ObjId) (i : Nat) (h : i < t.length) :
    removeAtSwap t i = t.take i ++ (t.getLastD 0 :: t.drop (i + 1)).dropLast := by
  unfold removeAtSwap
  rw [List.set_eq_take_cons_drop _ h, List.dropLast_append_cons]

lemma removeAtSwap_length (t : List ObjId) (i : Nat) :
    (removeAtSwap t i).length = t.length - 1 := by
  unfold removeAtSwap
  simp

lemma removeAtSwap_take (t : List ObjId) (i : Nat) (h : i < t.length) :
    (removeAtSwap t i).take i = t.take i := by
  rw [removeAtSwap_eq t i h]
  exact List.take_left' (by rw [List.length_take]; omega)

lemma removeAtSwap_drop (t : List ObjId) (i : Nat) (h : i < t.length) :
    (removeAtSwap t i).drop i = (t.getLastD 0 :: t.drop (i + 1)).dropLast := by
  rw [removeAtSwap_eq t i h]
  exact List.drop_left' (by rw [List.length_take]; omega)

lemma getLastD_eq_drop_getLast (t : List ObjId) (i : Nat) (hd : t.drop (i + 1) ≠ []) :
    t.getLastD 0 = (t.drop (i + 1)).getLast hd := by
  conv_lhs => rw [← List.take_append_drop (i + 1) t]
  rw [List.getLastD_eq_getLast?, List.getLast?_append_of_ne_nil _ hd,
    List.getLast?_eq_getLast _ hd, Option.getD_some]

lemma cons_getLast_dropLast_perm (d : List ObjId) (hd : d ≠ []) :
    ((d.getLast hd :: d).dropLast).Perm d := by
  have hstep : (d.getLast hd :: d).dropLast = d.getLast hd :: d.dropLast := by
    cases d with
    | nil => exact absurd rfl hd
    | cons a l => exact List.dropLast_cons₂
  rw [hstep]
  conv_rhs => rw [← List.dropLast_append_getLast hd]
  exact @List.perm_append_comm _ [d.getLast hd] d.dropLast

lemma removeAtSwap_suffix_perm (t : List ObjId) (i : Nat) (h : i < t.length) :
    ((removeAtSwap t i).drop i).Perm (t.drop (i + 1)) := by
  rw [removeAtSwap_drop t i h]
  by_cases hd : t.drop (i + 1) = []
  · rw [hd]
    rfl
  · rw [getLastD_eq_drop_getLast t i hd]
    exact cons_getLast_dropLast_perm _ hd

lemma removeAtSwap_perm_eraseIdx (t : List ObjId) (i : Nat) (h : i < t.length) :
    (removeAtSwap t i).Perm (t.eraseIdx i) := by
  rw [List.eraseIdx_eq_take_drop_succ, removeAtSwap_eq t i h]
  exact List.Perm.append_left _ (by
    rw [← removeAtSwap_drop t i h]
    exact removeAtSwap_suffix_perm t i h)

lemma samplePassLoop_succ_live (w : World) {i : Nat} {t : List ObjId}
    (cache : List FMemoryUsageInfo) (hi : i < t.length)
    (hl : w.live (t.get ⟨i, hi⟩) = true) :
    samplePassLoop w (i + 1) t cache
      = samplePassLoop w i t (cache ++ [mkInfo w (t.get ⟨i, hi⟩)]) := by
  conv_lhs => unfold samplePassLoop
  rw [dif_pos hi]
  dsimp only
  rw [if_pos hl]

lemma samplePassLoop_succ_dead (w : World) {i : Nat} {t : List ObjId}
    (cache : List FMemoryUsageInfo) (hi : i < t.length)
    (hl : w.live (t.get ⟨i, hi⟩) = false) :
    samplePassLoop w (i + 1) t cache = samplePassLoop w i (removeAtSwap t i) cache := by
  conv_lhs => unfold samplePassLoop
  rw [dif_pos hi]
  dsimp only
  rw [if_neg (by rw [hl]; exact Bool.false_ne_true)]

lemma samplePassLoop_spec (w : World) :
    ∀ (i : Nat) (t : List ObjId) (cache : List FMemoryUsageInfo),
      i ≤ t.length →
      (∀ x ∈ t.drop i, w.live x = true) →
      (samplePassLoop w i t cache).1.Perm
          ((t.take i).filter (fun h => w.live h) ++ t.drop i)
      ∧ (samplePassLoop w i t cache).2
          = cache ++ ((t.take i).reverse.filter (fun h => w.live h)).map (mkInfo w) := by
  intro i
  induction i with
  | zero =>
    intro t cache _ _
    constructor
    · simp [samplePassLoop]
    · simp [samplePassLoop]
  | succ i ih =>
    intro t cache hle hsuf
    have hi : i < t.length := by omega
    have hdropi : t.drop i = t[i] :: t.drop (i + 1) := List.drop_eq_getElem_cons hi
    have htake : t.take (i + 1) = t.take i ++ [t[i]] := by
      rw [← List.take_concat_get t i hi, List.concat_eq_append]
    by_cases hl : w.live (t.get ⟨i, hi⟩) = true
    · rw [samplePassLoop_succ_live w cache hi hl]
      have hlElem : w.live t[i] = true := by
        simpa [List.get_eq_getElem] using hl
      have hsuf' : ∀ x ∈ t.drop i, w.live x = true := by
        intro x hx
        rw [hdropi] at hx
        rcases List.mem_cons.1 hx with rfl | hx'
        · exact hlElem
        · exact hsuf x hx'
      obtain ⟨hperm, hcache⟩ := ih t (cache ++ [mkInfo w (t.get ⟨i, hi⟩)]) (le_of_lt hi) hsuf'
      constructor
      · have heq : (t.take (i + 1)).filter (fun h => w.live h) ++ t.drop (i + 1)
            = (t.take i).filter (fun h => w.live h) ++ t.drop i := by
          rw [htake, hdropi, List.filter_append]
          simp [hlElem]
        rw [heq]
        exact hperm
      · have hfl : (t.take (i + 1)).filter (fun h => w.live h)
            = (t.take i).filter (fun h => w.live h) ++ [t[i]] := by
          rw [htake, List.filter_append]
          simp [hlElem]
        rw [hcache, List.filter_reverse, List.filter_reverse, hfl, List.reverse_append]
        simp [List.get_eq_getElem, List.append_assoc]
    · have hl' : w.live (t.get ⟨i, hi⟩) = false := by
        cases hv : w.live (t.get ⟨i, hi⟩)
        · rfl
        · exact absurd hv hl
      have hlElem : w.live t[i] = false := by
        simpa [List.get_eq_getElem] using hl'
      rw [samplePassLoop_succ_dead w cache hi hl']
      have hlen2 : (removeAtSwap t i).length = t.length - 1 := removeAtSwap_length t i
      have hle2 : i ≤ (removeAtSwap t i).length := by omega
      have hsufperm : ((removeAtSwap t i).drop i).Perm (t.drop (i + 1)) :=
        removeAtSwap_suffix_perm t i hi
      have hsuf2 : ∀ x ∈ (removeAtSwap t i).drop i, w.live x = true := by
        intro x hx
        exact hsuf x (hsufperm.subset hx)
      obtain ⟨hperm, hcache⟩ := ih (removeAtSwap t i) cache hle2 hsuf2
      constructor
      · refine hperm.trans ?_
        rw [removeAtSwap_take t i hi]
        have hfl : (t.take (i + 1)).filter (fun h => w.live h)
            = (t.take i).filter (fun h => w.live h) := by
          rw [htake, List.filter_append]
          simp [hlElem]
        rw [hfl]
        exact List.Perm.append_left _ hsufperm
      · have hfl2 : (t.take (i + 1)).filter (fun h => w.live h)
            = (t.take i).filter (fun h => w.live h) := by
          rw [htake, List.filter_append]
          simp [hlElem]
        rw [hcache, removeAtSwap_take t i hi, List.filter_reverse, List.filter_reverse, hfl2]

/-- Claim C6: a sampling pass removes every handle whose referent is
destroyed from the tracked set, excludes it from the rebuilt cache, and still
produces a record for every other (live) tracked object; consequently every
cached record references a live object at snapshot construction.  The
surviving tracked set is a permutation of the live tracked handles
(`RemoveAtSwap` disturbs order only). -/
theorem samplingPass_prunes_dead (w : World) (t : List ObjId) (d : ObjId)
    (hd : d ∈ t) (hdead : w.live d = false) :
    d ∉ (samplingPass w t).1
    ∧ (∀ info ∈ (samplingPass w t).2,
        info.trackedObject ≠ d ∧ w.live info.trackedObject = true)
    ∧ (∀ x ∈ t, w.live x = true → ∃ info ∈ (samplingPass w t).2, info.trackedObject = x)
    ∧ (samplingPass w t).1.Perm (t.filter fun h => w.live h) := by
  unfold samplingPass
  obtain ⟨hperm, hcache⟩ :=
    samplePassLoop_spec w t.length t [] (le_refl _) (by simp)
  rw [List.take_length, List.drop_length, List.append_nil] at hperm
  rw [List.nil_append, List.take_length] at hcache
  refine ⟨?_, ?_, ?_, hperm⟩
  · intro hmem
    have hdm := hperm.subset hmem
    rw [List.mem_filter] at hdm
    rw [hdm.2] at hdead
    cases hdead
  · intro info hinfo
    rw [hcache] at hinfo
    obtain ⟨x, hx, rfl⟩ := List.mem_map.1 hinfo
    rw [List.mem_filter] at hx
    refine ⟨?_, hx.2⟩
    intro hcontra
    have : w.live (mkInfo w x).trackedObject = true := hx.2
    rw [hcontra] at this
    rw [this] at hdead
    cases hdead
  · intro x hx hlx
    rw [hcache]
    refine ⟨mkInfo w x, List.mem_map_of_mem _ ?_, rfl⟩
    rw [List.mem_filter]
    exact ⟨List.mem_reverse.2 hx, hlx⟩

/-- Witness for claim C6: with object 0 live and object 1 destroyed, the pass
on the tracked set `[0, 1]` leaves exactly `[0]`, and all pruning conclusions
hold at this concrete input. -/
theorem samplingPass_prunes_dead_witness :
    (samplingPass pruneWorld [0, 1]).1 = [0]
    ∧ (1 ∉ (samplingPass pruneWorld [0, 1]).1
        ∧ (∀ info ∈ (samplingPass pruneWorld [0, 1]).2,
            info.trackedObject ≠ 1 ∧ pruneWorld.live info.trackedObject = true)
        ∧ (∀ x ∈ ([0, 1] : List ObjId), pruneWorld.live x = true →
            ∃ info ∈ (samplingPass pruneWorld [0, 1]).2, info.trackedObject = x)
        ∧ (samplingPass pruneWorld [0, 1]).1.Perm
            (([0, 1] : List ObjId).filter fun h => pruneWorld.live h)) :=
  ⟨by decide, samplingPass_prunes_dead pruneWorld [0, 1] 1 (by decide) (by decide)⟩

lemma weakGet_eq_some_iff (w : World) (h x : ObjId) :
    weakGet w h = some x ↔ w.live h = true ∧ h = x := by
  unfold weakGet
  cases hv : w.live h <;> simp [hv]

lemma unregisterLoop_succ_hit (w : World) (oid : ObjId) {i : Nat} {t : List ObjId}
    (hi : i < t.length) (hm : weakGet w (t.get ⟨i, hi⟩) = some oid) :
    unregisterLoop w oid (i + 1) t = removeAtSwap t i := by
  conv_lhs => unfold unregisterLoop
  rw [dif_pos hi, if_pos (by rw [hm]; simp)]

lemma unregisterLoop_succ_miss (w : World) (oid : ObjId) {i : Nat} {t : List ObjId}
    (hi : i < t.length) (hm : weakGet w (t.get ⟨i, hi⟩) ≠ some oid) :
    unregisterLoop w oid (i + 1) t = unregisterLoop w oid i t := by
  conv_lhs => unfold unregisterLoop
  rw [dif_pos hi, if_neg (by simpa using hm)]

lemma unregisterLoop_cases (w : World) (oid : ObjId) :
    ∀ (i : Nat) (t : List ObjId),
      unregisterLoop w oid i t = t
      ∨ ∃ k, k < t.length ∧ unregisterLoop w oid i t = removeAtSwap t k := by
  intro i
  induction i with
  | zero =>
    intro t
    exact Or.inl rfl
  | succ i ih =>
    intro t
    by_cases hi : i < t.length
    · by_cases hm : weakGet w (t.get ⟨i, hi⟩) = some oid
      · exact Or.inr ⟨i, hi, unregisterLoop_succ_hit w oid hi hm⟩
      · rw [unregisterLoop_succ_miss w oid hi hm]
        exact ih t
    · have hstep : unregisterLoop w oid (i + 1) t = unregisterLoop w oid i t := by
        conv_lhs => unfold unregisterLoop
        rw [dif_neg hi]
      rw [hstep]
      exact ih t

lemma unregisterLoop_spec (w : World) (oid : ObjId) :
    ∀ (i : Nat) (t : List ObjId),
      i ≤ t.length →
      (∀ x ∈ t.drop i, weakGet w x ≠ some oid) →
      ((∀ x ∈ t, weakGet w x ≠ some oid) → unregisterLoop w oid i t = t)
      ∧ (∀ pre post, t = pre ++ oid :: post → w.live oid = true →
          (∀ x ∈ post, weakGet w x ≠ some oid) →
          (unregisterLoop w oid i t).Perm (pre ++ post)) := by
  intro i
  induction i with
  | zero =>
    intro t _ hsuf
    rw [List.drop_zero] at hsuf
    constructor
    · intro _
      rfl
    · intro pre post heq hlive _
      exfalso
      refine hsuf oid ?_ ?_
      · rw [heq]
        exact List.mem_append_right _ (List.mem_cons_self _ _)
      · rw [weakGet_eq_some_iff]
        exact ⟨hlive, rfl⟩
  | succ i ih =>
    intro t hle hsuf
    have hi : i < t.length := by omega
    have hdropi : t.drop i = t[i] :: t.drop (i + 1) := List.drop_eq_getElem_cons hi
    by_cases hm : weakGet w (t.get ⟨i, hi⟩) = some oid
    · rw [unregisterLoop_succ_hit w oid hi hm]
      have hmElem : weakGet w t[i] = some oid := by
        simpa [List.get_eq_getElem] using hm
      have hti : w.live t[i] = true ∧ t[i] = oid := (weakGet_eq_some_iff w _ _).1 hmElem
      constructor
      · intro hnone
        exact absurd hmElem (hnone t[i] (List.getElem_mem hi))
      · intro pre post heq hlive hpost
        have hipre : i = pre.length := by
          rcases Nat.lt_trichotomy i pre.length with hlt | heqi | hgt
          · exfalso
            have hmem : oid ∈ t.drop (i + 1) := by
              rw [heq, List.drop_append_eq_append_drop,
                show i + 1 - pre.length = 0 by omega, List.drop_zero]
              exact List.mem_append_right _ (List.mem_cons_self _ _)
            refine hsuf oid hmem ?_
            rw [weakGet_eq_some_iff]
            exact ⟨hlive, rfl⟩
          · exact heqi
          · exfalso
            have hmem : t[i] ∈ t.drop i := by
              rw [hdropi]
              exact List.mem_cons_self _ _
            have hdropeq : t.drop i = post.drop (i - pre.length - 1) := by
              rw [heq, List.drop_append_eq_append_drop,
                List.drop_eq_nil_of_le (by omega), List.nil_append,
                show i - pre.length = (i - pre.length - 1) + 1 by omega,
                List.drop_succ_cons]
              simp
            rw [hdropeq] at hmem
            exact absurd hmElem (hpost t[i] (List.drop_subset _ _ hmem))
        refine (removeAtSwap_perm_eraseIdx t i hi).trans ?_
        rw [heq, List.eraseIdx_eq_take_drop_succ,
          List.take_left' (by omega),
          show pre ++ oid :: post = (pre ++ [oid]) ++ post by simp,
          List.drop_left' (by simp; omega)]
    · rw [unregisterLoop_succ_miss w oid hi hm]
      have hmElem : weakGet w t[i] ≠ some oid := by
        simpa [List.get_eq_getElem] using hm
      refine ih t (le_of_lt hi) ?_
      intro x hx
      rw [hdropi] at hx
      rcases List.mem_cons.1 hx with rfl | hx'
      · exact hmElem
      · exact hsuf x hx'

/-- Claim C10: `UnregisterObject` with a non-null object removes at most one
handle — exactly the first handle (scanning from the end) that resolves to
the object — leaving every other handle in place (as a multiset; the
swap-removal disturbs order) and the cached snapshot untouched; with no
resolving handle the state is unchanged. -/
theorem unregisterObject_removes_at_most_one (w : World) (s : TrackerState) (oid : ObjId) :
    (unregisterObjectS w s (some oid)).cachedMemoryInfo = s.cachedMemoryInfo
    ∧ ((∀ x ∈ s.trackedObjects, weakGet w x ≠ some oid) →
        unregisterObjectS w s (some oid) = s)
    ∧ (∀ pre post, s.trackedObjects = pre ++ oid :: post → w.live oid = true →
        (∀ x ∈ post, weakGet w x ≠ some oid) →
        ((unregisterObjectS w s (some oid)).trackedObjects).Perm (pre ++ post)
        ∧ (unregisterObjectS w s (some oid)).trackedObjects.length + 1
            = s.trackedObjects.length) := by
  obtain ⟨hno, hyes⟩ := unregisterLoop_spec w oid s.trackedObjects.length s.trackedObjects
    (le_refl _) (by simp)
  refine ⟨rfl, ?_, ?_⟩
  · intro hnone
    show { s with trackedObjects := unregisterLoop w oid s.trackedObjects.length s.trackedObjects } = s
    rw [hno hnone]
  · intro pre post heq hlive hpost
    have hperm := hyes pre post heq hlive hpost
    refine ⟨hperm, ?_⟩
    have hlen := hperm.length_eq
    have hslen : s.trackedObjects.length = pre.length + (post.length + 1) := by
      rw [heq]
      simp
    show (unregisterLoop w oid s.trackedObjects.length s.trackedObjects).length + 1
        = s.trackedObjects.length
    simp only [List.length_append] at hlen
    omega

/-- Witness for claim C10: in a tracked set `[5, 7, 6]` of live objects,
unregistering 7 removes exactly that handle (the result is `[5, 6]`), keeps
the cache, and the multiset characterization holds at this input. -/
theorem unregisterObject_removes_at_most_one_witness :
    (unregisterObjectS liveWorld threeTrackedState (some 7)).trackedObjects = [5, 6]
    ∧ (unregisterObjectS liveWorld threeTrackedState (some 7)).cachedMemoryInfo
        = threeTrackedState.cachedMemoryInfo
    ∧ ((unregisterObjectS liveWorld threeTrackedState (some 7)).trackedObjects).Perm
        ([5] ++ [6]) :=
  ⟨by decide,
    (unregisterObject_removes_at_most_one liveWorld threeTrackedState 7).1,
    ((unregisterObject_removes_at_most_one liveWorld threeTrackedState 7).2.2
      [5] [6] (by decide) (by decide) (by decide)).1⟩

/-- Claim C7: the no-two-live-handles-to-one-referent invariant.
`RegisterObject` appends only when no current handle resolves to the
argument, every tracker operation preserves the invariant, and registering
the same live object twice from an empty set leaves exactly one handle. -/
theorem trackedObjects_no_dup_live (w : World) :
    (∀ t o, NoDupLive w t → NoDupLive w (registerObject w t o))
    ∧ (∀ t o, NoDupLive w t → NoDupLive w (unregisterObject w t o))
    ∧ (∀ t, NoDupLive w t → NoDupLive w (samplingPass w t).1)
    ∧ (∀ dt s, NoDupLive w s.trackedObjects →
        NoDupLive w (tickComponent w dt s).trackedObjects)
    ∧ (∀ o, w.live o = true →
        (registerObject w (registerObject w [] (some o)) (some o)).length = 1) := by
  have hremove : ∀ t (k : Nat), NoDupLive w t → NoDupLive w (removeAtSwap t k) := by
    intro t k hnd
    by_cases hk : k < t.length
    · have hperm := removeAtSwap_perm_eraseIdx t k hk
      have hsub : ((t.eraseIdx k).filter fun h => w.live h).Sublist
          (t.filter fun h => w.live h) := (List.eraseIdx_sublist t k).filter _
      exact (hperm.filter _).symm.nodup (hsub.nodup hnd)
    · unfold removeAtSwap
      rw [List.set_eq_of_length_le (by omega)]
      have hsub : (t.dropLast.filter fun h => w.live h).Sublist
          (t.filter fun h => w.live h) := (List.dropLast_sublist t).filter _
      exact hsub.nodup hnd
  have hunreg : ∀ t o, NoDupLive w t → NoDupLive w (unregisterObject w t o) := by
    intro t o hnd
    match o with
    | none => exact hnd
    | some oid =>
      rcases unregisterLoop_cases w oid t.length t with hsame | ⟨k, hk, hrw⟩
      · show NoDupLive w (unregisterLoop w oid t.length t)
        rw [hsame]
        exact hnd
      · show NoDupLive w (unregisterLoop w oid t.length t)
        rw [hrw]
        exact hremove t k hnd
  have hpass : ∀ t, NoDupLive w t → NoDupLive w (samplingPass w t).1 := by
    intro t hnd
    obtain ⟨hperm, -⟩ := samplePassLoop_spec w t.length t [] (le_refl _) (by simp)
    rw [List.take_length, List.drop_length, List.append_nil] at hperm
    have : ((samplingPass w t).1.filter fun h => w.live h).Perm
        ((t.filter fun h => w.live h).filter fun h => w.live h) := hperm.filter _
    refine List.Perm.nodup this.symm ?_
    rw [List.filter_filter]
    simpa using hnd
  refine ⟨?_, hunreg, hpass, ?_, ?_⟩
  · intro t o hnd
    match o with
    | none => exact hnd
    | some oid =>
      show NoDupLive w (if t.any (fun h => weakGet w h == some oid) then t else t ++ [oid])
      by_cases hany : t.any (fun h => weakGet w h == some oid) = true
      · rw [if_pos hany]
        exact hnd
      · rw [if_neg hany]
        unfold NoDupLive
        rw [List.filter_append]
        by_cases hlo : w.live oid = true
        · have hfo : ([oid].filter fun h => w.live h) = [oid] := by simp [hlo]
          rw [hfo, List.nodup_append]
          refine ⟨hnd, List.nodup_singleton _, ?_⟩
          intro x hx hxo
          rw [List.mem_singleton] at hxo
          subst hxo
          rw [List.mem_filter] at hx
          refine hany ?_
          rw [List.any_eq_true]
          exact ⟨x, hx.1, by rw [(weakGet_eq_some_iff w x x).2 ⟨hx.2, rfl⟩]; simp⟩
        · have hfo : ([oid].filter fun h => w.live h) = [] := by
            simp [Bool.not_eq_true] at hlo
            simp [hlo]
          rw [hfo, List.append_nil]
          exact hnd
  · intro dt s hnd
    unfold tickComponent
    by_cases hc : s.sampleInterval ≤ 0 ∨ s.trackedObjects.length = 0
    · rw [if_pos hc]
      exact hnd
    · rw [if_neg hc]
      by_cases hreach : s.sampleInterval ≤ s.timeAccumulator + dt
      · rw [if_pos hreach]
        exact hpass s.trackedObjects hnd
      · rw [if_neg hreach]
        exact hnd
  · intro o hlo
    simp [registerObject, weakGet, hlo]

/-- Witness for claim C7: registering live object 3 twice starting from an
empty tracked set yields the one-element set `[3]`. -/
theorem trackedObjects_no_dup_live_witness :
    registerObject liveWorld (registerObject liveWorld [] (some 3)) (some 3) = [3]
    ∧ (registerObject liveWorld (registerObject liveWorld [] (some 3)) (some 3)).length = 1 :=
  ⟨by decide, (trackedObjects_no_dup_live liveWorld).2.2.2.2 3 (by decide)⟩
